import Mathlib

/-!
# Verification of the caption-to-speech-block reconstruction engine

A shallow embedding, in Lean 4, of `parse_captions.py` from the
`a2council_transcripts` repository, together with theorems settling the
specification claims about it.

Modelling conventions:
* Python strings are Lean `String`s; character-level operations work on
  `String.data` (a `List Char`), so that everything reduces in the kernel.
* Timestamps stay strings (as in the source, which keeps `caption.start` /
  `caption.end` as strings and parses them only inside `calc_duration`).
  `time.fromisoformat` is modelled for the `HH:MM:SS.mmm` form that the cue
  source produces (the only form reaching it in this program), including
  Python's range validation (hour < 24, minute < 60, second < 60).
* Durations are exact integer *milliseconds*: the source computes
  `(end - start).total_seconds()` as a float, but every timestamp has
  millisecond resolution, so seconds x 1000 represents every arising value
  exactly (4.0 seconds = 4000 milliseconds).
* Python exceptions (a malformed timestamp, `min` over an empty sequence)
  become `Option`/`Except` failures.
* The `for` loop of `get_speech_blocks` becomes explicit state passing: the
  loop-carried variables of the source form the record `SegState`, one loop
  iteration is `step`, and the loop is `runCaptions`.
-/

/-- `Block = namedtuple("Block", ["start", "end", "duration", "speaker", "speech"])`.
`start`/`end` hold the loop variables `start_time`/`end_time` (strings in the
source, `None` before first assignment, hence `Option String` here);
`duration` is in milliseconds. -/
structure Block where
  start : Option String
  stop : Option String
  duration : Int
  speaker : String
  speech : String
deriving DecidableEq, Repr

/-- One cue produced by the cue source (`webvtt` caption): start timestamp,
end timestamp, raw text payload. -/
structure Caption where
  start : String
  stop : String
  text : String
deriving DecidableEq, Repr

/-- `UNKNOWN_SPEAKER = "UNKNOWN"`. -/
def UNKNOWN_SPEAKER : String := "UNKNOWN"

/-- Numeric value of a decimal digit character. -/
def digitVal (c : Char) : Nat := c.toNat - 48

/-- `datetime.time.fromisoformat` on the `HH:MM:SS.mmm` strings produced by
the cue source, yielding the time of day in milliseconds. Python validates
hour < 24, minute < 60, second < 60 and raises otherwise (`none` here). -/
def parse_timestamp (s : String) : Option Nat :=
  match s.data with
  | [h1, h2, ':', m1, m2, ':', s1, s2, '.', f1, f2, f3] =>
    if h1.isDigit && h2.isDigit && m1.isDigit && m2.isDigit && s1.isDigit &&
        s2.isDigit && f1.isDigit && f2.isDigit && f3.isDigit then
      let h := digitVal h1 * 10 + digitVal h2
      let m := digitVal m1 * 10 + digitVal m2
      let sec := digitVal s1 * 10 + digitVal s2
      let ms := digitVal f1 * 100 + digitVal f2 * 10 + digitVal f3
      if h < 24 && m < 60 && sec < 60 then
        some (((h * 3600 + m * 60 + sec) * 1000) + ms)
      else none
    else none
  | _ => none

/-- `calc_duration(start_time, end_time)`: combine both times with a fixed
placeholder date and subtract, i.e. the signed time-of-day difference.
Result in milliseconds (the source's float seconds x 1000). -/
def calc_duration (start_time end_time : String) : Option Int :=
  match parse_timestamp start_time, parse_timestamp end_time with
  | some a, some b => some ((b : Int) - (a : Int))
  | _, _ => none

/-- Classic Levenshtein distance recurrence, as computed by
`jellyfish.levenshtein_distance` (unit-cost insertion, deletion,
substitution). The extra `Nat` argument is structural-recursion fuel; every
recursive call shortens `xs ++ ys`, so fuel `xs.length + ys.length` is always
sufficient and the `0, _ :: _, _ :: _` case is unreachable at the fuel
supplied by `levenshtein_distance`. -/
def levAux : Nat → List Char → List Char → Nat
  | _, [], ys => ys.length
  | _, xs, [] => xs.length
  | f + 1, x :: xs, y :: ys =>
    min (levAux f xs (y :: ys) + 1)
      (min (levAux f (x :: xs) ys + 1)
        (levAux f xs ys + (if x = y then 0 else 1)))
  | 0, _ :: _, _ :: _ => 0

/-- `jellyfish.levenshtein_distance(query, candidate)`. -/
def levenshtein_distance (query candidate : String) : Nat :=
  levAux (query.data.length + candidate.data.length) query.data candidate.data

/-- Python string comparison `s < t`: lexicographic on code points. -/
def chars_lt : List Char → List Char → Bool
  | [], [] => false
  | [], _ :: _ => true
  | _ :: _, [] => false
  | x :: xs, y :: ys => if x = y then chars_lt xs ys else decide (x < y)

/-- Python tuple comparison `(score, candidate) < (score', candidate')`:
first components compared as numbers, ties resolved by comparing the
candidate strings. -/
def tuple_lt (p q : Nat × String) : Bool :=
  decide (p.1 < q.1) || (decide (p.1 = q.1) && chars_lt p.2.data q.2.data)

/-- `get_closest_match(query, knowns)`: Python's `min` over the generator of
`(levenshtein_distance(query, candidate), candidate)` pairs — scan the pairs
keeping the current element unless a strictly smaller one (tuple order)
appears — then return the candidate of the minimal pair. `min` over an empty
sequence raises (`none`). -/
def get_closest_match (query : String) (knowns : List String) : Option String :=
  match knowns.map (fun candidate => (levenshtein_distance query candidate, candidate)) with
  | [] => none
  | p :: ps => some (ps.foldl (fun acc q => if tuple_lt q acc then q else acc) p).2

/-- The speaker map: a Python `dict` from raw lowercase label to canonical
name, as an insertion-ordered association list (keys are unique: entries are
only added after a failed lookup). -/
abbrev SpeakerMap := List (String × String)

/-- Dictionary lookup `m[k]` / `k in m`. -/
def sm_lookup : SpeakerMap → String → Option String
  | [], _ => none
  | (k, v) :: rest, q => if k = q then some v else sm_lookup rest q

/-- `infer_speaker(speaker)` (the closure inside `get_speech_blocks`), with
its captured state made explicit: if `no_infer_speakers`, return the label
unchanged; else answer from `speaker_map` when present; else compute the
closest match over `known_speakers`, record it in the map, and return it.
`none` only when `get_closest_match` raises (empty `known_speakers`). -/
def infer_speaker (no_infer_speakers : Bool) (known_speakers : List String)
    (speaker_map : SpeakerMap) (speaker : String) : Option (String × SpeakerMap) :=
  if no_infer_speakers then
    some (speaker, speaker_map)
  else
    match sm_lookup speaker_map speaker with
    | some v => some (v, speaker_map)
    | none =>
      match get_closest_match speaker known_speakers with
      | some inferred => some (inferred, speaker_map ++ [(speaker, inferred)])
      | none => none

/-- The character set of `caption.text.strip("\r\n \u0000")`. -/
def strip_set : List Char := ['\r', '\n', ' ', '\u0000']

/-- Python `s.strip(chars)`: drop characters of the set from both ends. -/
def py_strip (chars : List Char) (s : List Char) : List Char :=
  ((s.dropWhile (chars.contains ·)).reverse.dropWhile (chars.contains ·)).reverse

/-- The Line Normalizer: `caption.text.strip("\r\n \u0000")`. -/
def stripLine (s : String) : String := String.mk (py_strip strip_set s.data)

/-- `line.startswith(">>")`. -/
def isMarker (s : String) : Bool :=
  match s.data with
  | '>' :: '>' :: _ => true
  | _ => false

/-- Python whitespace stripped by a bare `.strip()`. -/
def ws_set : List Char := [' ', '\t', '\n', '\r', '\x0b', '\x0c']

/-- `line[2:].split(":")[0].strip().lower()`: drop the two marker characters,
keep the part before the first colon, strip whitespace, lowercase.
(`Char.toLower` lowercases ASCII letters, which covers every label the
claims exercise; Python's `.lower()` additionally folds non-ASCII.) -/
def extract_label (line : String) : String :=
  String.mk (((py_strip ws_set ((line.data.drop 2).takeWhile (· ≠ ':'))).map Char.toLower))

/-- The loop-carried state of `get_speech_blocks`: the memo dictionary of the
`infer_speaker` closure, the output list `blocks`, and the variables
`last_line`, `start_time`, `end_time`, `duration`, `current_speech`,
`speaker`. -/
structure SegState where
  speaker_map : SpeakerMap
  blocks : List Block
  last_line : String
  start_time : Option String
  end_time : Option String
  duration : Int
  current_speech : String
  speaker : String
deriving DecidableEq, Repr

/-- The state at loop entry: `speaker_map = {s: s for s in known_speakers}`,
`blocks = []`, `last_line = ""`, `start_time = end_time = None`,
`duration = 0`, `current_speech = ""`, `speaker = UNKNOWN_SPEAKER`. -/
def initState (known_speakers : List String) : SegState :=
  { speaker_map := known_speakers.map (fun s => (s, s))
    blocks := []
    last_line := ""
    start_time := none
    end_time := none
    duration := 0
    current_speech := ""
    speaker := UNKNOWN_SPEAKER }

/-- The `if start_time is not None: blocks.append(Block(start_time, end_time,
duration, speaker, current_speech))` lines of the marker branch, naming the
resulting `blocks` value. -/
def finalizeBlocks (st : SegState) : List Block :=
  match st.start_time with
  | some _ =>
    st.blocks ++ [{ start := st.start_time, stop := st.end_time,
                    duration := st.duration, speaker := st.speaker,
                    speech := st.current_speech }]
  | none => st.blocks

/-- One iteration of the `for caption in captions` loop of
`get_speech_blocks`. Normalize the text; skip the cue when it repeats the
last accepted line; otherwise record it as the last accepted line and either
(marker line) finalize any active block, start a new one and determine its
speaker, or (continuation) extend speech and end time; finally add this cue's
`calc_duration` to `duration`.  `none` models an exception escaping the loop
body (malformed timestamp, or `get_closest_match` on an empty list). -/
def step (no_infer_speakers : Bool) (known_speakers : List String)
    (st : SegState) (caption : Caption) : Option SegState :=
  let line := stripLine caption.text
  if line = st.last_line then
    some st
  else if isMarker line then
    match calc_duration caption.start caption.stop with
    | none => none
    | some d =>
      let blocks := finalizeBlocks st
      if line.data.contains ':' then
        match infer_speaker no_infer_speakers known_speakers st.speaker_map
            (extract_label line) with
        | none => none
        | some (spk, m) =>
          some { speaker_map := m, blocks := blocks, last_line := line,
                 start_time := some caption.start, end_time := some caption.stop,
                 duration := d, current_speech := line, speaker := spk }
      else
        some { speaker_map := st.speaker_map, blocks := blocks, last_line := line,
               start_time := some caption.start, end_time := some caption.stop,
               duration := d, current_speech := line, speaker := UNKNOWN_SPEAKER }
  else
    match calc_duration caption.start caption.stop with
    | none => none
    | some d =>
      some { speaker_map := st.speaker_map, blocks := st.blocks, last_line := line,
             start_time := st.start_time, end_time := some caption.stop,
             duration := st.duration + d,
             current_speech := st.current_speech ++ " " ++ line,
             speaker := st.speaker }

/-- The whole `for` loop: fold `step` over the cue sequence. -/
def runCaptions (no_infer_speakers : Bool) (known_speakers : List String)
    (st : SegState) : List Caption → Option SegState
  | [] => some st
  | c :: cs =>
    match step no_infer_speakers known_speakers st c with
    | none => none
    | some st' => runCaptions no_infer_speakers known_speakers st' cs

/-- `get_speech_blocks(captions, no_infer_speakers, known_speakers)`:
run the loop from the initial state and return `(blocks, speaker_map)`. -/
def get_speech_blocks (captions : List Caption) (no_infer_speakers : Bool)
    (known_speakers : List String) : Option (List Block × SpeakerMap) :=
  (runCaptions no_infer_speakers known_speakers (initState known_speakers) captions).map
    (fun st => (st.blocks, st.speaker_map))

/-- The transcript projection of `main --get-transcript`:
`"\n".join(b.speech for b in blocks)`. -/
def transcript (blocks : List Block) : String :=
  String.intercalate "\n" (blocks.map (fun b => b.speech))

/-! ## Basic lemmas about the loop body -/

/-- Exhaustive description of a successful loop iteration: either the cue was
deduplicated (state unchanged), or it was a marker line (with or without a
colon) that finalized any active block and started a fresh one, or it was a
continuation line. -/
theorem step_cases {ni : Bool} {k : List String} {st : SegState} {c : Caption}
    {st' : SegState} (h : step ni k st c = some st') :
    (stripLine c.text = st.last_line ∧ st' = st)
    ∨ (stripLine c.text ≠ st.last_line ∧ isMarker (stripLine c.text) = true ∧
        ∃ d, calc_duration c.start c.stop = some d ∧
          ((∃ spk m, (stripLine c.text).data.contains ':' = true ∧
              infer_speaker ni k st.speaker_map (extract_label (stripLine c.text)) =
                some (spk, m) ∧
              st' = { speaker_map := m, blocks := finalizeBlocks st,
                      last_line := stripLine c.text, start_time := some c.start,
                      end_time := some c.stop, duration := d,
                      current_speech := stripLine c.text, speaker := spk })
           ∨ ((stripLine c.text).data.contains ':' = false ∧
              st' = { speaker_map := st.speaker_map, blocks := finalizeBlocks st,
                      last_line := stripLine c.text, start_time := some c.start,
                      end_time := some c.stop, duration := d,
                      current_speech := stripLine c.text,
                      speaker := UNKNOWN_SPEAKER })))
    ∨ (stripLine c.text ≠ st.last_line ∧ isMarker (stripLine c.text) = false ∧
        ∃ d, calc_duration c.start c.stop = some d ∧
          st' = { speaker_map := st.speaker_map, blocks := st.blocks,
                  last_line := stripLine c.text, start_time := st.start_time,
                  end_time := some c.stop, duration := st.duration + d,
                  current_speech := st.current_speech ++ " " ++ stripLine c.text,
                  speaker := st.speaker }) := by
  simp only [step] at h
  split at h
  · exact Or.inl ⟨by assumption, (Option.some.inj h).symm⟩
  · rename_i hdup
    split at h
    · rename_i hmark
      split at h
      · exact absurd h (by simp)
      · rename_i d hd
        split at h
        · rename_i hcolon
          split at h
          · exact absurd h (by simp)
          · rename_i spk m hinf
            refine Or.inr (Or.inl ⟨hdup, hmark, d, hd,
              Or.inl ⟨spk, m, hcolon, ?_, ?_⟩⟩)
            · simpa using hinf
            · cases h
              rfl
        · rename_i hcolon
          refine Or.inr (Or.inl ⟨hdup, hmark, d, hd, Or.inr ⟨by simpa using hcolon, ?_⟩⟩)
          exact (Option.some.inj h).symm
    · rename_i hmark
      split at h
      · exact absurd h (by simp)
      · rename_i d hd
        exact Or.inr (Or.inr ⟨hdup, by simpa using hmark, d, hd, (Option.some.inj h).symm⟩)

/-- Lifting a one-step invariant through the whole loop. -/
theorem run_inv {ni : Bool} {k : List String} (P : SegState → Prop)
    (hstep : ∀ st c st', P st → step ni k st c = some st' → P st') :
    ∀ (cs : List Caption) (st st' : SegState), P st →
      runCaptions ni k st cs = some st' → P st'
  | [], st, st', hP, h => by
    simp only [runCaptions] at h
    exact (Option.some.inj h) ▸ hP
  | c :: cs, st, st', hP, h => by
    simp only [runCaptions] at h
    split at h
    · exact absurd h (by simp)
    · rename_i st₁ h₁
      exact run_inv P hstep cs st₁ st' (hstep st c st₁ hP h₁) h

/-! ## C1: Scenario A -/

def scenarioA_cue1 : Caption := ⟨"00:00:00.000", "00:00:02.000", ">> smith: hello"⟩
def scenarioA_cue2 : Caption := ⟨"00:00:02.000", "00:00:04.000", "there"⟩
def scenarioA_knowns : List String := ["smith", "UNKNOWN"]
def scenarioA_cue3 : Caption := ⟨"00:00:04.000", "00:00:04.000", ">> next"⟩

/-- C1, counterexample: on the two-cue Scenario A input with known speaker
"smith" and infer mode enabled, `get_speech_blocks` returns an *empty* block
list (the trailing block, still active at end of stream, is never appended),
not the single block the claim describes. -/
theorem c1_counterexample :
    get_speech_blocks [scenarioA_cue1, scenarioA_cue2] false scenarioA_knowns =
      some ([], [("smith", "smith"), ("UNKNOWN", "UNKNOWN")]) := by decide

/-- C1, amended: the two-cue Scenario A input yields zero emitted blocks,
because the still-active trailing block is not finalized at end of stream;
the described block — speaker "smith", speech ">> smith: hello there",
duration 4.0 seconds (= 4000 ms) spanning 00:00:00.000–00:00:04.000 — is
exactly what a subsequent speaker-marker cue would emit: appending one more
marker cue makes `get_speech_blocks` return exactly that one block. -/
theorem c1_theorem :
    get_speech_blocks [scenarioA_cue1, scenarioA_cue2, scenarioA_cue3] false scenarioA_knowns =
      some ([{ start := some "00:00:00.000", stop := some "00:00:04.000",
               duration := 4000, speaker := "smith",
               speech := ">> smith: hello there" }],
            [("smith", "smith"), ("UNKNOWN", "UNKNOWN")]) := by decide

/-! ## C7: passthrough when inference is disabled -/

/-- C7: when infer mode is disabled, resolving any raw label returns that
label verbatim together with the very same speaker map, for every map — the
resolution neither consults nor mutates the map. -/
theorem c7_theorem (known_speakers : List String) (m : SpeakerMap) (raw_label : String) :
    infer_speaker true known_speakers m raw_label = some (raw_label, m) := rfl

/-! ## C5: the duplicate filter -/

/-- C5: a cue whose normalized line equals the last accepted normalized line
is discarded entirely — the loop state (blocks, duration, speech, speaker
state, and the last-accepted-line register itself) is exactly unchanged;
a cue whose normalized line differs is accepted and replaces the register;
the register starts as the empty string (so a leading cue normalizing to the
empty string is also discarded, by the first conjunct applied at the initial
state). -/
theorem c5_theorem (ni : Bool) (knowns : List String) (st : SegState) (c : Caption) :
    (stripLine c.text = st.last_line → step ni knowns st c = some st)
    ∧ (stripLine c.text ≠ st.last_line →
        ∀ st', step ni knowns st c = some st' → st'.last_line = stripLine c.text)
    ∧ (initState knowns).last_line = "" := by
  refine ⟨fun h => by simp [step, h], fun hne st' h => ?_, rfl⟩
  rcases step_cases h with ⟨heq, _⟩ | ⟨_, _, d, _, ⟨spk, m, _, _, rfl⟩ | ⟨_, rfl⟩⟩ |
    ⟨_, _, d, _, rfl⟩
  · exact absurd heq hne
  · rfl
  · rfl
  · rfl

/-- Witness for C5: a leading all-stripped cue (normalizes to the empty
string, equal to the initial register) leaves the initial state untouched;
and an accepted line "hi" becomes the new register value. -/
theorem c5_witness :
    step false ["a"] (initState ["a"]) ⟨"00:00:00.000", "00:00:01.000", " \r\n"⟩ =
      some (initState ["a"])
    ∧ (SegState.mk [("a", "a")] [] "hi" none (some "00:00:01.000") 1000 " hi"
        "UNKNOWN").last_line = stripLine "hi" :=
  ⟨(c5_theorem false ["a"] (initState ["a"]) ⟨"00:00:00.000", "00:00:01.000", " \r\n"⟩).1
      (by decide),
   (c5_theorem false ["a"] (initState ["a"]) ⟨"00:00:00.000", "00:00:01.000", "hi"⟩).2.1
      (by decide)
      (SegState.mk [("a", "a")] [] "hi" none (some "00:00:01.000") 1000 " hi" "UNKNOWN")
      (by decide)⟩

/-! ## C2: no finalization at end of stream -/

/-- C2: the block list can only grow at an accepted speaker-marker line that
finds a block active (and then by exactly the finalized active block), and
`get_speech_blocks` returns the loop's block accumulator as is — no
end-of-stream finalization is applied, so a block still active when the cue
stream is exhausted is absent from the output: the output consists exactly
of the blocks finalized by a subsequent marker line. -/
theorem c2_theorem (ni : Bool) (knowns : List String) :
    (∀ st c st', step ni knowns st c = some st' →
        st'.blocks = st.blocks ∨
          (isMarker (stripLine c.text) = true ∧ st.start_time.isSome = true ∧
           st'.blocks = st.blocks ++
             [{ start := st.start_time, stop := st.end_time, duration := st.duration,
                speaker := st.speaker, speech := st.current_speech }]))
    ∧ (∀ captions st, runCaptions ni knowns (initState knowns) captions = some st →
        get_speech_blocks captions ni knowns = some (st.blocks, st.speaker_map)) := by
  constructor
  · intro st c st' h
    rcases step_cases h with ⟨_, rfl⟩ | ⟨_, hmark, d, _, ⟨spk, m, _, _, rfl⟩ | ⟨_, rfl⟩⟩ |
      ⟨_, _, d, _, rfl⟩
    · exact Or.inl rfl
    · cases hst : st.start_time with
      | none => exact Or.inl (by simp [finalizeBlocks, hst])
      | some s => exact Or.inr ⟨hmark, by simp [hst], by simp [finalizeBlocks, hst]⟩
    · cases hst : st.start_time with
      | none => exact Or.inl (by simp [finalizeBlocks, hst])
      | some s => exact Or.inr ⟨hmark, by simp [hst], by simp [finalizeBlocks, hst]⟩
    · exact Or.inl rfl
  · intro captions st h
    simp [get_speech_blocks, h]

/-- Witness for C2: a one-marker-cue run, whose final state (with its
still-active block) is returned by `get_speech_blocks` with an empty block
list. -/
theorem c2_witness :
    get_speech_blocks [⟨"00:00:00.000", "00:00:01.000", ">> hi"⟩] false ["a"] =
      some ([], [("a", "a")]) :=
  (c2_theorem false ["a"]).2 [⟨"00:00:00.000", "00:00:01.000", ">> hi"⟩]
    (SegState.mk [("a", "a")] [] ">> hi" (some "00:00:00.000") (some "00:00:01.000")
      1000 ">> hi" "UNKNOWN")
    (by decide)

/-! ## C4: memoized resolution -/

theorem sm_lookup_append_some {m : SpeakerMap} {k w : String} (l : SpeakerMap)
    (h : sm_lookup m k = some w) : sm_lookup (m ++ l) k = some w := by
  induction m with
  | nil => simp [sm_lookup] at h
  | cons p rest ih =>
    obtain ⟨a, b⟩ := p
    by_cases hak : a = k
    · simpa [sm_lookup, hak] using h
    · simp only [sm_lookup, hak, if_false, List.cons_append] at h ⊢
      exact ih h

theorem sm_lookup_append_self {m : SpeakerMap} {k : String} (v : String)
    (h : sm_lookup m k = none) : sm_lookup (m ++ [(k, v)]) k = some v := by
  induction m with
  | nil => simp [sm_lookup]
  | cons p rest ih =>
    obtain ⟨a, b⟩ := p
    by_cases hak : a = k
    · simp [sm_lookup, hak] at h
    · simp only [sm_lookup, hak, if_false, List.cons_append] at h ⊢
      exact ih h

/-- C4: with infer mode enabled, a successful resolution of `x` to `v`
taking the map `m` to `m'` satisfies: resolving `x` again returns the same
value `v` and leaves the map untouched — answered from the cache, since
`x` is now a key of `m'`; the map either was untouched (cache hit) or gained
exactly the one new entry `(x, v)` at the end (`x` previously absent); and
every entry present before is present, unchanged, afterwards — entries are
only ever added, never modified. -/
theorem c4_theorem (knowns : List String) (m : SpeakerMap) (x v : String)
    (m' : SpeakerMap) (h : infer_speaker false knowns m x = some (v, m')) :
    infer_speaker false knowns m' x = some (v, m')
    ∧ sm_lookup m' x = some v
    ∧ (m' = m ∨ (sm_lookup m x = none ∧ m' = m ++ [(x, v)]))
    ∧ (∀ k w, sm_lookup m k = some w → sm_lookup m' k = some w) := by
  unfold infer_speaker at h
  rw [if_neg Bool.false_ne_true] at h
  cases hl : sm_lookup m x with
  | some v0 =>
    rw [hl] at h
    obtain ⟨rfl, rfl⟩ : v0 = v ∧ m = m' := by
      have := Option.some.inj h
      exact ⟨congrArg Prod.fst this, congrArg Prod.snd this⟩
    refine ⟨?_, hl, Or.inl rfl, fun k w hw => hw⟩
    unfold infer_speaker
    rw [if_neg Bool.false_ne_true, hl]
  | none =>
    rw [hl] at h
    cases hc : get_closest_match x knowns with
    | none => rw [hc] at h; exact absurd h (by simp)
    | some inf =>
      rw [hc] at h
      obtain ⟨rfl, rfl⟩ : inf = v ∧ m ++ [(x, inf)] = m' := by
        have := Option.some.inj h
        exact ⟨congrArg Prod.fst this, congrArg Prod.snd this⟩
      have hx : sm_lookup (m ++ [(x, inf)]) x = some inf := sm_lookup_append_self inf hl
      refine ⟨?_, hx, Or.inr ⟨rfl, rfl⟩, fun k w hw => sm_lookup_append_some _ hw⟩
      unfold infer_speaker
      rw [if_neg Bool.false_ne_true, hx]

/-- Witness for C4: resolving the unknown label "z" against known speakers
["ab"] inserts ("z", "ab"); resolving it again returns "ab" from the cache
with the map unchanged. -/
theorem c4_witness :
    infer_speaker false ["ab"] [("ab", "ab"), ("z", "ab")] "z" =
      some ("ab", [("ab", "ab"), ("z", "ab")]) :=
  ( c4_theorem ["ab"] [("ab", "ab")] "z" "ab" [("ab", "ab"), ("z", "ab")] (by decide)).1

/-! ## C9: pre-first-marker content reaches no block -/

/-- C9: while no speaker-marker line has been seen (`start_time` still
`None`), the output block list is empty — so the transcript projection is
empty and contains no trace of any accepted pre-marker line; and the first
accepted marker line resets the speech buffer to the marker line itself and
the duration accumulator to just that cue's contribution, appending nothing,
so the speech text and duration accrued from pre-marker lines are attributed
to no block and lost. -/
theorem c9_theorem (ni : Bool) (knowns : List String) :
    (∀ captions st, runCaptions ni knowns (initState knowns) captions = some st →
        st.start_time = none → st.blocks = [] ∧ transcript st.blocks = "")
    ∧ (∀ st c st', st.start_time = none → stripLine c.text ≠ st.last_line →
        isMarker (stripLine c.text) = true → step ni knowns st c = some st' →
        st'.current_speech = stripLine c.text ∧ st'.blocks = st.blocks ∧
          ∃ d, calc_duration c.start c.stop = some d ∧ st'.duration = d) := by
  constructor
  · intro captions st h hnone
    have hP : st.start_time = none → st.blocks = [] := by
      refine run_inv (fun s => s.start_time = none → s.blocks = []) ?_ captions
        (initState knowns) st (fun _ => rfl) h
      intro s c s' hs hstep
      rcases step_cases hstep with ⟨_, rfl⟩ | ⟨_, _, d, _, ⟨spk, m, _, _, rfl⟩ | ⟨_, rfl⟩⟩ |
        ⟨_, _, d, _, rfl⟩
      · exact hs
      · intro hc; cases hc
      · intro hc; cases hc
      · intro hnone'
        simp only at hnone' ⊢
        exact hs hnone'
    have hb := hP hnone
    exact ⟨hb, by rw [hb]; rfl⟩
  · intro st c st' hnone hne hm hstep
    rcases step_cases hstep with ⟨heq, _⟩ | ⟨_, _, d, hd, ⟨spk, mm, _, _, rfl⟩ | ⟨_, rfl⟩⟩ |
      ⟨_, hnm, _, _, _⟩
    · exact absurd heq hne
    · exact ⟨rfl, by simp [finalizeBlocks, hnone], d, hd, rfl⟩
    · exact ⟨rfl, by simp [finalizeBlocks, hnone], d, hd, rfl⟩
    · rw [hm] at hnm; cases hnm

/-- Witness for C9: a run consisting of one accepted continuation line ends
with no marker seen and an empty block list and transcript. -/
theorem c9_witness :
    (SegState.mk [("a", "a")] [] "hi" none (some "00:00:01.000") 1000 " hi"
        "UNKNOWN").blocks = []
    ∧ transcript (SegState.mk [("a", "a")] [] "hi" none (some "00:00:01.000") 1000 " hi"
        "UNKNOWN").blocks = "" :=
  (c9_theorem false ["a"]).1 [⟨"00:00:00.000", "00:00:01.000", "hi"⟩]
    (SegState.mk [("a", "a")] [] "hi" none (some "00:00:01.000") 1000 " hi" "UNKNOWN")
    (by decide) rfl

/-! ## C10: resolved speakers come from the known-speaker list -/

theorem sm_lookup_mem {m : SpeakerMap} {q v : String} (h : sm_lookup m q = some v) :
    (q, v) ∈ m := by
  induction m with
  | nil => simp [sm_lookup] at h
  | cons p rest ih =>
    obtain ⟨a, b⟩ := p
    by_cases haq : a = q
    · subst haq
      simp only [sm_lookup, if_pos rfl] at h
      exact (Option.some.inj h) ▸ List.mem_cons_self _ _
    · simp only [sm_lookup, haq, if_false] at h
      exact List.mem_cons_of_mem _ (ih h)

/-- The scanning minimum stays an element of the scanned list. -/
theorem fold_min_mem : ∀ (ps : List (Nat × String)) (p : Nat × String),
    ps.foldl (fun acc q => if tuple_lt q acc then q else acc) p = p ∨
      ps.foldl (fun acc q => if tuple_lt q acc then q else acc) p ∈ ps := by
  intro ps
  induction ps with
  | nil => exact fun p => Or.inl rfl
  | cons q ps ih =>
    intro p
    simp only [List.foldl_cons]
    rcases ih (if tuple_lt q p then q else p) with h | h
    · rw [h]
      by_cases hq : tuple_lt q p = true
      · rw [if_pos hq]; exact Or.inr (List.mem_cons_self _ _)
      · rw [if_neg hq]; exact Or.inl rfl
    · exact Or.inr (List.mem_cons_of_mem _ h)

theorem get_closest_match_mem {query : String} {knowns : List String} {c : String}
    (h : get_closest_match query knowns = some c) : c ∈ knowns := by
  unfold get_closest_match at h
  cases hk : knowns.map (fun candidate => (levenshtein_distance query candidate, candidate)) with
  | nil => rw [hk] at h; exact absurd h (by simp)
  | cons p ps =>
    rw [hk] at h
    have hmem : (ps.foldl (fun acc q => if tuple_lt q acc then q else acc) p) ∈ p :: ps := by
      rcases fold_min_mem ps p with he | he
      · rw [he]; exact List.mem_cons_self _ _
      · exact List.mem_cons_of_mem _ he
    rw [← hk] at hmem
    obtain ⟨y, hy, hfy⟩ := List.mem_map.1 hmem
    have : c = y := by
      have h2 := congrArg Prod.snd hfy
      simp only at h2
      rw [← Option.some.inj h, ← h2]
    exact this ▸ hy

theorem infer_false_mem {knowns : List String} {m : SpeakerMap} {x spk : String}
    {m' : SpeakerMap} (h : infer_speaker false knowns m x = some (spk, m'))
    (hm : ∀ p ∈ m, p.2 ∈ knowns) :
    spk ∈ knowns ∧ ∀ p ∈ m', p.2 ∈ knowns := by
  unfold infer_speaker at h
  rw [if_neg Bool.false_ne_true] at h
  cases hl : sm_lookup m x with
  | some v0 =>
    rw [hl] at h
    obtain ⟨rfl, rfl⟩ : v0 = spk ∧ m = m' := by
      have := Option.some.inj h
      exact ⟨congrArg Prod.fst this, congrArg Prod.snd this⟩
    exact ⟨hm _ (sm_lookup_mem hl), hm⟩
  | none =>
    rw [hl] at h
    cases hc : get_closest_match x knowns with
    | none => rw [hc] at h; exact absurd h (by simp)
    | some inf =>
      rw [hc] at h
      obtain ⟨rfl, rfl⟩ : inf = spk ∧ m ++ [(x, inf)] = m' := by
        have := Option.some.inj h
        exact ⟨congrArg Prod.fst this, congrArg Prod.snd this⟩
      have hik := get_closest_match_mem hc
      refine ⟨hik, fun p hp => ?_⟩
      rcases List.mem_append.1 hp with hp | hp
      · exact hm _ hp
      · rw [List.mem_singleton.1 hp]
        exact hik

/-- C10: with infer mode enabled and the UNKNOWN sentinel among the known
speakers (as the caller guarantees by appending it), every state reachable
by the loop has all speaker-map values, the current speaker, and every
emitted block's speaker drawn from the known-speaker list — in particular
every resolution stored a known speaker, and every emitted block (whether
its marker line carried a colon, resolved via the map, or not, using the
UNKNOWN sentinel) has a known speaker. -/
theorem c10_theorem (knowns : List String) (hU : UNKNOWN_SPEAKER ∈ knowns)
    (captions : List Caption) (st : SegState)
    (h : runCaptions false knowns (initState knowns) captions = some st) :
    (∀ p ∈ st.speaker_map, p.2 ∈ knowns)
    ∧ st.speaker ∈ knowns
    ∧ (∀ b ∈ st.blocks, b.speaker ∈ knowns) := by
  refine run_inv
    (fun s => (∀ p ∈ s.speaker_map, p.2 ∈ knowns) ∧ s.speaker ∈ knowns ∧
      ∀ b ∈ s.blocks, b.speaker ∈ knowns) ?_ captions (initState knowns) st ⟨?_, hU, ?_⟩ h
  · intro s c s' hs hstep
    obtain ⟨hmap, hspk, hblk⟩ := hs
    have hfin : ∀ b ∈ finalizeBlocks s, b.speaker ∈ knowns := by
      intro b hb
      unfold finalizeBlocks at hb
      cases hss : s.start_time with
      | none => rw [hss] at hb; exact hblk _ hb
      | some s0 =>
        rw [hss] at hb
        rcases List.mem_append.1 hb with hb | hb
        · exact hblk _ hb
        · rw [List.mem_singleton.1 hb]
          exact hspk
    rcases step_cases hstep with ⟨_, rfl⟩ | ⟨_, _, d, _, ⟨spk, m, _, hinf, rfl⟩ | ⟨_, rfl⟩⟩ |
      ⟨_, _, d, _, rfl⟩
    · exact ⟨hmap, hspk, hblk⟩
    · obtain ⟨h1, h2⟩ := infer_false_mem hinf hmap
      exact ⟨h2, h1, hfin⟩
    · exact ⟨hmap, hU, hfin⟩
    · exact ⟨hmap, hspk, hblk⟩
  · intro p hp
    simp only [initState] at hp
    obtain ⟨s, hsk, hsp⟩ := List.mem_map.1 hp
    rw [← hsp]
    exact hsk
  · intro b hb
    simp [initState] at hb

/-- Witness for C10: a one-cue run whose marker line names the known speaker
"b"; the resulting state keeps all map values, the current speaker, and all
block speakers inside the known list. -/
theorem c10_witness :
    (∀ p ∈ (SegState.mk [("b", "b"), ("UNKNOWN", "UNKNOWN")] [] ">> b: x"
        (some "00:00:00.000") (some "00:00:01.000") 1000 ">> b: x" "b").speaker_map,
      p.2 ∈ ["b", "UNKNOWN"])
    ∧ (SegState.mk [("b", "b"), ("UNKNOWN", "UNKNOWN")] [] ">> b: x"
        (some "00:00:00.000") (some "00:00:01.000") 1000 ">> b: x" "b").speaker ∈
        ["b", "UNKNOWN"]
    ∧ (∀ b ∈ (SegState.mk [("b", "b"), ("UNKNOWN", "UNKNOWN")] [] ">> b: x"
        (some "00:00:00.000") (some "00:00:01.000") 1000 ">> b: x" "b").blocks,
      b.speaker ∈ ["b", "UNKNOWN"]) :=
  c10_theorem ["b", "UNKNOWN"] (by decide) [⟨"00:00:00.000", "00:00:01.000", ">> b: x"⟩]
    (SegState.mk [("b", "b"), ("UNKNOWN", "UNKNOWN")] [] ">> b: x"
      (some "00:00:00.000") (some "00:00:01.000") 1000 ">> b: x" "b")
    (by decide)

/-! ## C3: tie-breaking in the nearest-neighbor lookup -/

theorem chars_lt_irrefl (a : List Char) : chars_lt a a = false := by
  induction a with
  | nil => rfl
  | cons x xs ih => simp [chars_lt, ih]

theorem chars_lt_trans (a : List Char) : ∀ b c, chars_lt a b = true →
    chars_lt b c = true → chars_lt a c = true := by
  induction a with
  | nil =>
    intro b c h1 h2
    cases b with
    | nil => simp [chars_lt] at h1
    | cons y ys =>
      cases c with
      | nil => simp [chars_lt] at h2
      | cons z zs => simp [chars_lt]
  | cons x xs ih =>
    intro b c h1 h2
    cases b with
    | nil => simp [chars_lt] at h1
    | cons y ys =>
      cases c with
      | nil => simp [chars_lt] at h2
      | cons z zs =>
        simp only [chars_lt] at h1 h2 ⊢
        by_cases hxy : x = y
        · subst hxy
          rw [if_pos rfl] at h1
          by_cases hxz : x = z
          · subst hxz
            rw [if_pos rfl] at h2 ⊢
            exact ih ys zs h1 h2
          · rw [if_neg hxz] at h2 ⊢
            exact h2
        · rw [if_neg hxy] at h1
          have hxy' : x < y := of_decide_eq_true h1
          by_cases hyz : y = z
          · subst hyz
            rw [if_neg hxy]
            exact decide_eq_true hxy'
          · rw [if_neg hyz] at h2
            have hyz' : y < z := of_decide_eq_true h2
            have hxz' : x < z := lt_trans hxy' hyz'
            rw [if_neg (ne_of_lt hxz')]
            exact decide_eq_true hxz'

theorem chars_lt_conn (a : List Char) : ∀ b, chars_lt a b = false →
    chars_lt b a = true ∨ a = b := by
  induction a with
  | nil =>
    intro b h
    cases b with
    | nil => exact Or.inr rfl
    | cons y ys => simp [chars_lt] at h
  | cons x xs ih =>
    intro b h
    cases b with
    | nil => exact Or.inl (by simp [chars_lt])
    | cons y ys =>
      simp only [chars_lt] at h ⊢
      by_cases hxy : x = y
      · subst hxy
        rw [if_pos rfl] at h
        rw [if_pos rfl]
        rcases ih ys h with h' | h'
        · exact Or.inl h'
        · exact Or.inr (by rw [h'])
      · rw [if_neg hxy] at h
        have hnxy : ¬ x < y := of_decide_eq_false h
        have hyx : y < x := by
          rcases lt_trichotomy x y with h' | h' | h'
          · exact absurd h' hnxy
          · exact absurd h' hxy
          · exact h'
        rw [if_neg (fun he => hxy he.symm)]
        exact Or.inl (decide_eq_true hyx)

theorem tuple_lt_irrefl (p : Nat × String) : tuple_lt p p = false := by
  simp [tuple_lt, chars_lt_irrefl]

theorem tuple_lt_trans {p q r : Nat × String} (h1 : tuple_lt p q = true)
    (h2 : tuple_lt q r = true) : tuple_lt p r = true := by
  simp only [tuple_lt, Bool.or_eq_true, Bool.and_eq_true, decide_eq_true_eq] at h1 h2 ⊢
  rcases h1 with h1 | ⟨h1e, h1c⟩
  · rcases h2 with h2 | ⟨h2e, h2c⟩
    · exact Or.inl (lt_trans h1 h2)
    · exact Or.inl (h2e ▸ h1)
  · rcases h2 with h2 | ⟨h2e, h2c⟩
    · exact Or.inl (h1e ▸ h2)
    · exact Or.inr ⟨h1e.trans h2e, chars_lt_trans _ _ _ h1c h2c⟩

theorem tuple_lt_conn {p q : Nat × String} (h : tuple_lt p q = false) :
    tuple_lt q p = true ∨ p = q := by
  rcases Nat.lt_trichotomy p.1 q.1 with hlt | heq | hgt
  · exfalso
    have : tuple_lt p q = true := by
      simp only [tuple_lt, Bool.or_eq_true, decide_eq_true_eq]
      exact Or.inl hlt
    rw [this] at h
    cases h
  · have hc : chars_lt p.2.data q.2.data = false := by
      cases hcb : chars_lt p.2.data q.2.data with
      | false => rfl
      | true =>
        exfalso
        have : tuple_lt p q = true := by
          simp only [tuple_lt, Bool.or_eq_true, Bool.and_eq_true, decide_eq_true_eq]
          exact Or.inr ⟨heq, hcb⟩
        rw [this] at h
        cases h
    rcases chars_lt_conn _ _ hc with h' | h'
    · refine Or.inl ?_
      simp only [tuple_lt, Bool.or_eq_true, Bool.and_eq_true, decide_eq_true_eq]
      exact Or.inr ⟨heq.symm, h'⟩
    · refine Or.inr (Prod.ext heq ?_)
      exact congrArg String.mk h'
  · refine Or.inl ?_
    simp only [tuple_lt, Bool.or_eq_true, decide_eq_true_eq]
    exact Or.inl hgt

/-- The scanning minimum is minimal (in the strict tuple order) among the
start element and every scanned element. -/
theorem fold_min_le : ∀ (ps : List (Nat × String)) (p x : Nat × String),
    (x = p ∨ x ∈ ps) →
    tuple_lt x (ps.foldl (fun acc q => if tuple_lt q acc then q else acc) p) = false := by
  intro ps
  induction ps with
  | nil =>
    intro p x hx
    rcases hx with rfl | hx
    · exact tuple_lt_irrefl x
    · cases hx
  | cons q ps ih =>
    intro p x hx
    simp only [List.foldl_cons]
    by_cases hq : tuple_lt q p = true
    · rw [if_pos hq]
      rcases hx with hxp | hx
      · rw [hxp]
        have hqr := ih q q (Or.inl rfl)
        cases hxr : tuple_lt p (ps.foldl (fun acc r => if tuple_lt r acc then r else acc) q) with
        | false => rfl
        | true =>
          exfalso
          rw [tuple_lt_trans hq hxr] at hqr
          cases hqr
      · rcases List.mem_cons.1 hx with hxq | hx
        · rw [hxq]
          exact ih q q (Or.inl rfl)
        · exact ih q x (Or.inr hx)
    · rw [if_neg hq]
      have hq' : tuple_lt q p = false := by
        cases hb : tuple_lt q p with
        | false => rfl
        | true => exact absurd hb hq
      rcases hx with hxp | hx
      · rw [hxp]
        exact ih p p (Or.inl rfl)
      · rcases List.mem_cons.1 hx with hxq | hx
        · rw [hxq]
          have hpr := ih p p (Or.inl rfl)
          cases hxr : tuple_lt q (ps.foldl (fun acc r => if tuple_lt r acc then r else acc) p) with
          | false => rfl
          | true =>
            exfalso
            rcases tuple_lt_conn hq' with hpq | hpq
            · rw [tuple_lt_trans hpq hxr] at hpr
              cases hpr
            · rw [hpq] at hxr
              rw [hxr] at hpr
              cases hpr
        · exact ih p x (Or.inr hx)

/-- C3, counterexample: for query "ab" with known speakers ["b", "aa"], the
candidates "b" and "aa" tie at Levenshtein distance 1; the first minimum in
iteration order is "b", but `get_closest_match` returns "aa" (Python's tuple
`min` compares the candidate strings on ties), refuting the claim that the
first tied candidate in iteration order wins. -/
theorem c3_counterexample :
    levenshtein_distance "ab" "b" = 1 ∧ levenshtein_distance "ab" "aa" = 1 ∧
      get_closest_match "ab" ["b", "aa"] = some "aa" := by decide

/-- C3, amended: on a non-empty known-speaker list, `get_closest_match`
returns a candidate of the list that is minimal in the lexicographic order
on `(levenshtein distance, candidate string)` pairs — so ties at the minimum
distance are broken by Python-style string comparison of the candidates
(the lexicographically smallest tied candidate wins), not by iteration
order. -/
theorem c3_theorem (query k0 : String) (ks : List String) :
    ∃ best, get_closest_match query (k0 :: ks) = some best ∧ best ∈ k0 :: ks ∧
      ∀ x ∈ k0 :: ks,
        tuple_lt (levenshtein_distance query x, x)
          (levenshtein_distance query best, best) = false := by
  refine ⟨((ks.map (fun candidate => (levenshtein_distance query candidate, candidate))).foldl
      (fun acc q => if tuple_lt q acc then q else acc)
      (levenshtein_distance query k0, k0)).2, rfl, ?_, ?_⟩
  all_goals
    have hmem := fold_min_mem
      (ks.map (fun candidate => (levenshtein_distance query candidate, candidate)))
      (levenshtein_distance query k0, k0)
  all_goals
    have hex : ∃ y, y ∈ k0 :: ks ∧
        (ks.map (fun candidate => (levenshtein_distance query candidate, candidate))).foldl
          (fun acc q => if tuple_lt q acc then q else acc)
          (levenshtein_distance query k0, k0) =
          (levenshtein_distance query y, y) := by
      rcases hmem with h | h
      · exact ⟨k0, List.mem_cons_self _ _, h⟩
      · obtain ⟨y, hy, hfy⟩ := List.mem_map.1 h
        exact ⟨y, List.mem_cons_of_mem _ hy, hfy.symm⟩
  all_goals obtain ⟨y, hy, hry⟩ := hex
  · rw [hry]
    exact hy
  · intro x hx
    have hx' : (levenshtein_distance query x, x) = (levenshtein_distance query k0, k0) ∨
        (levenshtein_distance query x, x) ∈
          ks.map (fun candidate => (levenshtein_distance query candidate, candidate)) := by
      rcases List.mem_cons.1 hx with rfl | hx
      · exact Or.inl rfl
      · exact Or.inr (List.mem_map_of_mem _ hx)
    have hle := fold_min_le
      (ks.map (fun candidate => (levenshtein_distance query candidate, candidate)))
      (levenshtein_distance query k0, k0) (levenshtein_distance query x, x) hx'
    rw [hry] at hle ⊢
    exact hle

/-! ## C8: header repair (`preprocess`) -/

/-- Python `readline` chunks: split the text into lines, each keeping its
trailing newline (the final line possibly without one). -/
def break_lines_aux : List Char → List Char → List String
  | acc, [] =>
    match acc with
    | [] => []
    | _ :: _ => [String.mk acc.reverse]
  | acc, c :: rest =>
    if c = '\n' then String.mk (acc.reverse ++ ['\n']) :: break_lines_aux [] rest
    else break_lines_aux (c :: acc) rest

def break_lines (s : String) : List String := break_lines_aux [] s.data

/-- `re.match` of `timestamp_pattern = r"^\d\d\:\d\d\:\d\d\.\d\d\d"`: the line
starts with a strict `HH:MM:SS.mmm` digit pattern. -/
def timestamp_match (line : String) : Bool :=
  match line.data with
  | h1 :: h2 :: ':' :: m1 :: m2 :: ':' :: s1 :: s2 :: '.' :: f1 :: f2 :: f3 :: _ =>
    h1.isDigit && h2.isDigit && m1.isDigit && m2.isDigit && s1.isDigit &&
      s2.isDigit && f1.isDigit && f2.isDigit && f3.isDigit
  | _ => false

/-- `preprocess(webvtt_fp)`: read line by line until a line starts with the
timestamp pattern — raising `"No timestamp-like lines found!"` at end of
file — then seek back to the start of that line and return the rest of the
file prefixed with the magic `"WEBVTT\r\n"` header. -/
def preprocess (content : String) : Except String String :=
  match (break_lines content).dropWhile (fun l => ! timestamp_match l) with
  | [] => Except.error "No timestamp-like lines found!"
  | l :: rest => Except.ok ("WEBVTT\r\n" ++ String.join (l :: rest))

theorem string_foldl_append (l : List String) : ∀ s : String,
    List.foldl (· ++ ·) s l = s ++ List.foldl (· ++ ·) "" l := by
  induction l with
  | nil => intro s; exact (String.append_empty s).symm
  | cons a l ih =>
    intro s
    simp only [List.foldl_cons]
    rw [ih (s ++ a), ih ("" ++ a)]
    rw [String.append_assoc]
    rfl

theorem string_join_cons (a : String) (l : List String) :
    String.join (a :: l) = a ++ String.join l := by
  unfold String.join
  simp only [List.foldl_cons]
  exact string_foldl_append l ("" ++ a)

theorem join_break_lines_aux : ∀ (cs acc : List Char),
    String.join (break_lines_aux acc cs) = String.mk (acc.reverse ++ cs) := by
  intro cs
  induction cs with
  | nil =>
    intro acc
    cases acc with
    | nil => rfl
    | cons a as =>
      show String.join [String.mk (a :: as).reverse] = String.mk ((a :: as).reverse ++ [])
      rw [string_join_cons]
      show ("" ++ String.mk (a :: as).reverse ++ "") = _
      rw [String.append_empty]
      simp
  | cons c rest ih =>
    intro acc
    by_cases hc : c = '\n'
    · subst hc
      show String.join (break_lines_aux acc ('\n' :: rest)) = _
      have : break_lines_aux acc ('\n' :: rest) =
          String.mk (acc.reverse ++ ['\n']) :: break_lines_aux [] rest := by
        simp [break_lines_aux]
      rw [this, string_join_cons, ih []]
      show String.mk (acc.reverse ++ ['\n']) ++ String.mk ([].reverse ++ rest) = _
      have hmk : ∀ (u v : List Char), String.mk u ++ String.mk v = String.mk (u ++ v) :=
        fun u v => rfl
      rw [hmk]
      simp
    · have : break_lines_aux acc (c :: rest) = break_lines_aux (c :: acc) rest := by
        simp [break_lines_aux, hc]
      rw [this, ih (c :: acc)]
      simp

theorem dropWhile_first_stop (p : String → Bool) : ∀ (pre : List String) (l : String)
    (post : List String), (∀ x ∈ pre, p x = true) → p l = false →
    (pre ++ l :: post).dropWhile p = l :: post := by
  intro pre
  induction pre with
  | nil =>
    intro l post _ hl
    simp [List.dropWhile_cons, hl]
  | cons a pre ih =>
    intro l post hpre hl
    rw [List.cons_append, List.dropWhile_cons, hpre a (List.mem_cons_self _ _)]
    simp only [if_true]
    exact ih l post (fun x hx => hpre x (List.mem_cons_of_mem _ hx)) hl

/-- C8: the header-repair step fails with the "No timestamp-like lines
found!" error exactly when no line of the input starts with the strict
`HH:MM:SS.mmm` pattern; when a first such line exists (all lines before it
failing the pattern), it succeeds with the minimal `"WEBVTT\r\n"` header
followed by the input from that line onward; and the line decomposition
loses nothing — joining all lines gives back the input, so the success
value is the header plus a genuine suffix of the input starting at the
first timestamped line. -/
theorem c8_theorem (content : String) :
    ((∀ l ∈ break_lines content, timestamp_match l = false) →
      preprocess content = Except.error "No timestamp-like lines found!")
    ∧ (∀ pre l post, break_lines content = pre ++ l :: post →
        (∀ x ∈ pre, timestamp_match x = false) → timestamp_match l = true →
        preprocess content = Except.ok ("WEBVTT\r\n" ++ String.join (l :: post)))
    ∧ String.join (break_lines content) = content := by
  refine ⟨?_, ?_, ?_⟩
  · intro h
    unfold preprocess
    have hnil : (break_lines content).dropWhile (fun l => ! timestamp_match l) = [] := by
      rw [List.dropWhile_eq_nil_iff]
      intro x hx
      rw [h x hx]
      rfl
    rw [hnil]
  · intro pre l post hsplit hpre hl
    unfold preprocess
    rw [hsplit, dropWhile_first_stop _ pre l post
      (fun x hx => by rw [hpre x hx]; rfl) (by rw [hl]; rfl)]
  · have h := join_break_lines_aux content.data []
    simpa [break_lines] using h

/-- Witness for C8: a file whose first line is junk and whose second line
starts with a timestamp is repaired to the `WEBVTT` header plus everything
from the timestamped line on. -/
theorem c8_witness :
    preprocess "junk\n00:00:01.000 --> 00:00:02.000\nhello" =
      Except.ok ("WEBVTT\r\n" ++
        String.join ["00:00:01.000 --> 00:00:02.000\n", "hello"]) :=
  ( c8_theorem "junk\n00:00:01.000 --> 00:00:02.000\nhello").2.1 ["junk\n"]
    "00:00:01.000 --> 00:00:02.000\n" ["hello"] (by decide) (by decide) (by decide)

/-! ## C6: duration accounting

`SpecAcct` and `spec_acct_step` follow the *specification's* words (§4.4
steps 1–3, §8 "Conservation"), not the code: for every accepted cue its
contribution `end - start` is added to a running `total`; a contribution
accrued while no marker has been seen and the line is not itself a marker is
also added to `lost` (the pre-first-marker quirk); `cur` is the duration
accumulated into the currently active block (reset to the cue's own
contribution at each marker); and `sums` collects, in order, the accumulated
duration of each finalized block. The claim is settled by proving the code's
block durations are exactly this machine's `sums`. -/

structure SpecAcct where
  last_line : String
  seen : Bool
  cur : Int
  lost : Int
  sums : List Int
  total : Int
deriving DecidableEq, Repr

def spec_acct_init : SpecAcct :=
  { last_line := "", seen := false, cur := 0, lost := 0, sums := [], total := 0 }

def spec_acct_step (g : SpecAcct) (caption : Caption) : Option SpecAcct :=
  let line := stripLine caption.text
  if line = g.last_line then
    some g
  else
    match calc_duration caption.start caption.stop with
    | none => none
    | some d =>
      if isMarker line then
        some { last_line := line, seen := true, cur := d, lost := g.lost,
               sums := if g.seen then g.sums ++ [g.cur] else g.sums,
               total := g.total + d }
      else
        some { last_line := line, seen := g.seen, cur := g.cur + d,
               lost := if g.seen then g.lost else g.lost + d,
               sums := g.sums, total := g.total + d }

def spec_acct_run : SpecAcct → List Caption → Option SpecAcct
  | g, [] => some g
  | g, c :: cs =>
    match spec_acct_step g c with
    | none => none
    | some g' => spec_acct_run g' cs

/-- The per-block durations of a block list. -/
def blockDurations (bs : List Block) : List Int := bs.map (fun b => b.duration)

theorem blockDurations_finalize (st : SegState) :
    blockDurations (finalizeBlocks st) =
      if st.start_time.isSome then blockDurations st.blocks ++ [st.duration]
      else blockDurations st.blocks := by
  cases hst : st.start_time with
  | none => simp [finalizeBlocks, blockDurations, hst]
  | some s0 => simp [finalizeBlocks, blockDurations, hst]

/-- One code step is simulated by one accounting step. -/
theorem step_corr {ni : Bool} {knowns : List String} {st : SegState} {c : Caption}
    {st' : SegState} {g : SpecAcct} (h : step ni knowns st c = some st')
    (h1 : st.last_line = g.last_line) (h2 : st.start_time.isSome = g.seen)
    (h3 : st.duration = g.cur) (h4 : blockDurations st.blocks = g.sums) :
    ∃ g', spec_acct_step g c = some g' ∧ st'.last_line = g'.last_line ∧
      st'.start_time.isSome = g'.seen ∧ st'.duration = g'.cur ∧
      blockDurations st'.blocks = g'.sums := by
  rcases step_cases h with ⟨hdup, rfl⟩ | ⟨hdup, hmark, d, hd, hbr⟩ |
    ⟨hdup, hmark, d, hd, rfl⟩
  · refine ⟨g, ?_, h1, h2, h3, h4⟩
    simp only [spec_acct_step]
    rw [if_pos (h1 ▸ hdup)]
  · have hg : spec_acct_step g c =
        some { last_line := stripLine c.text, seen := true, cur := d, lost := g.lost,
               sums := if g.seen then g.sums ++ [g.cur] else g.sums,
               total := g.total + d } := by
      simp only [spec_acct_step]
      rw [if_neg (h1 ▸ hdup), hd, hmark]
      simp
    have hblocks : blockDurations (finalizeBlocks st) =
        (if g.seen then g.sums ++ [g.cur] else g.sums) := by
      rw [blockDurations_finalize, h2, h3, h4]
    rcases hbr with ⟨spk, m, _, _, rfl⟩ | ⟨_, rfl⟩
    · exact ⟨_, hg, rfl, rfl, rfl, hblocks⟩
    · exact ⟨_, hg, rfl, rfl, rfl, hblocks⟩
  · have hg : spec_acct_step g c =
        some { last_line := stripLine c.text, seen := g.seen, cur := g.cur + d,
               lost := if g.seen then g.lost else g.lost + d,
               sums := g.sums, total := g.total + d } := by
      simp only [spec_acct_step]
      rw [if_neg (h1 ▸ hdup), hd, hmark]
      simp
    refine ⟨_, hg, rfl, h2, ?_, h4⟩
    show st.duration + d = g.cur + d
    rw [h3]

/-- The whole loop is simulated by the whole accounting run. -/
theorem run_corr {ni : Bool} {knowns : List String} : ∀ (cs : List Caption)
    (st : SegState) (g : SpecAcct) (st' : SegState),
    st.last_line = g.last_line → st.start_time.isSome = g.seen →
    st.duration = g.cur → blockDurations st.blocks = g.sums →
    runCaptions ni knowns st cs = some st' →
    ∃ g', spec_acct_run g cs = some g' ∧ st'.last_line = g'.last_line ∧
      st'.start_time.isSome = g'.seen ∧ st'.duration = g'.cur ∧
      blockDurations st'.blocks = g'.sums := by
  intro cs
  induction cs with
  | nil =>
    intro st g st' h1 h2 h3 h4 h
    simp only [runCaptions] at h
    exact (Option.some.inj h) ▸ ⟨g, rfl, h1, h2, h3, h4⟩
  | cons c cs ih =>
    intro st g st' h1 h2 h3 h4 h
    simp only [runCaptions] at h
    split at h
    · exact absurd h (by simp)
    · rename_i st₁ h₁
      obtain ⟨g₁, hg₁, k1, k2, k3, k4⟩ := step_corr h₁ h1 h2 h3 h4
      obtain ⟨g', hg', k⟩ := ih st₁ g₁ st' k1 k2 k3 k4 h
      refine ⟨g', ?_, k⟩
      simp only [spec_acct_run, hg₁]
      exact hg'

/-- The accounting machine's own conservation invariant:
`sum sums + (active block's running duration, if any) + lost = total`. -/
theorem spec_acct_step_inv {g : SpecAcct} {c : Caption} {g' : SpecAcct}
    (h : spec_acct_step g c = some g')
    (hi : g.sums.sum + (if g.seen then g.cur else 0) + g.lost = g.total) :
    g'.sums.sum + (if g'.seen then g'.cur else 0) + g'.lost = g'.total := by
  simp only [spec_acct_step] at h
  split at h
  · exact (Option.some.inj h) ▸ hi
  · split at h
    · exact absurd h (by simp)
    · rename_i d hd
      split at h
      · -- marker
        have hg' := (Option.some.inj h).symm
        subst hg'
        cases hs : g.seen with
        | true =>
          rw [hs] at hi
          simp at hi ⊢
          omega
        | false =>
          rw [hs] at hi
          simp at hi ⊢
          omega
      · -- continuation
        have hg' := (Option.some.inj h).symm
        subst hg'
        cases hs : g.seen with
        | true =>
          rw [hs] at hi
          simp at hi ⊢
          omega
        | false =>
          rw [hs] at hi
          simp at hi ⊢
          omega

theorem spec_acct_run_inv : ∀ (cs : List Caption) (g g' : SpecAcct),
    g.sums.sum + (if g.seen then g.cur else 0) + g.lost = g.total →
    spec_acct_run g cs = some g' →
    g'.sums.sum + (if g'.seen then g'.cur else 0) + g'.lost = g'.total := by
  intro cs
  induction cs with
  | nil =>
    intro g g' hi h
    simp only [spec_acct_run] at h
    exact (Option.some.inj h) ▸ hi
  | cons c cs ih =>
    intro g g' hi h
    simp only [spec_acct_run] at h
    split at h
    · exact absurd h (by simp)
    · rename_i g₁ h₁
      exact ih g₁ g' (spec_acct_step_inv h₁ hi) h

/-- C6: for every run of the loop, the emitted blocks' durations are exactly
the per-block accumulated cue contributions of the specification's
accounting machine (each block's duration is the sum of the `end - start`
contributions of the accepted cues assigned to it, not the wall-clock span
between the block's own timestamps), and their total equals the accounting
machine's total contribution of all accepted cues, minus the contributions
lost before the first marker, minus the running duration of a trailing
still-active (unfinalized) block. -/
theorem c6_theorem (captions : List Caption) (ni : Bool) (knowns : List String)
    (st : SegState)
    (h : runCaptions ni knowns (initState knowns) captions = some st) :
    ∃ g, spec_acct_run spec_acct_init captions = some g ∧
      blockDurations st.blocks = g.sums ∧
      (blockDurations st.blocks).sum =
        g.total - g.lost - (if st.start_time.isSome then st.duration else 0) := by
  obtain ⟨g, hg, k1, k2, k3, k4⟩ :=
    run_corr captions (initState knowns) spec_acct_init st rfl rfl rfl rfl h
  have hinv := spec_acct_run_inv captions spec_acct_init g (by simp [spec_acct_init]) hg
  refine ⟨g, hg, k4, ?_⟩
  rw [k4, k2, k3]
  omega

def c6_cues : List Caption :=
  [⟨"00:00:00.000", "00:00:02.000", ">> a"⟩,
   ⟨"00:00:10.000", "00:00:12.000", "mid"⟩,
   ⟨"00:00:12.000", "00:00:12.000", ">> b"⟩]

def c6_final : SegState :=
  { speaker_map := [("a", "a")]
    blocks := [⟨some "00:00:00.000", some "00:00:12.000", 4000, "UNKNOWN", ">> a mid"⟩]
    last_line := ">> b"
    start_time := some "00:00:12.000"
    end_time := some "00:00:12.000"
    duration := 0
    current_speech := ">> b"
    speaker := "UNKNOWN" }

/-- Witness for C6: a run with a caption gap (cues 0–2 s and 10–12 s) emits
one block with duration 4000 ms — the sum of its cues' contributions, not
the 12000 ms wall-clock span between the block's own start and end
timestamps — and the accounting identities hold. -/
theorem c6_witness :
    (∃ g, spec_acct_run spec_acct_init c6_cues = some g ∧
        blockDurations c6_final.blocks = g.sums ∧
        (blockDurations c6_final.blocks).sum =
          g.total - g.lost -
            (if c6_final.start_time.isSome then c6_final.duration else 0))
    ∧ blockDurations c6_final.blocks = [4000]
    ∧ calc_duration "00:00:00.000" "00:00:12.000" = some 12000 :=
  ⟨c6_theorem c6_cues false ["a"] c6_final (by decide), by decide, by decide⟩

/-- Witness for C3: on query "ab" and known speakers ["b", "aa"], the
returned candidate is minimal in the (distance, string) tuple order among
both candidates. -/
theorem c3_witness :
    ∃ best, get_closest_match "ab" ["b", "aa"] = some best ∧ best ∈ ["b", "aa"] ∧
      ∀ x ∈ ["b", "aa"],
        tuple_lt (levenshtein_distance "ab" x, x)
          (levenshtein_distance "ab" best, best) = false :=
  c3_theorem "ab" "b" ["aa"]
